import Mathlib

/-!
Shallow embedding of the options-chain normalization and aggregation
pipeline of `src/openbbtest.py` (a Streamlit dashboard built on pandas).

A dataframe cell is either null (pandas NaN/NaT), a number, or a string.
A row of the options dataframe carries the columns the pipeline touches:
the thirteen numeric columns of `numeric_cols` (lines 89-93), the
`option_type` and `expiration` columns, the three timestamp columns of
the `dt_col` loop (line 106), and the scratch column `open_interest_agg`
that line 252 adds during aggregation (absent = `none`).

External library behaviour (pandas `to_numeric` / `to_datetime` with
errors=coerce) is modelled per cell: a value that parses is
converted, a value that does not becomes null.  Number parsing is
modelled for optionally signed decimal literals, date parsing for
ISO `YYYY-M-D` strings and datetime parsing for `YYYY-M-D[ H:M:S]`
strings; other provider formats and numeric epoch values are abstracted
as unparseable, which none of the verified claims depend on.
-/

inductive Cell : Type where
  | null : Cell
  | num : Rat → Cell
  | str : String → Cell
deriving DecidableEq

structure Row where
  strike : Cell := Cell.null
  option_type : Cell := Cell.null
  expiration : Cell := Cell.null
  bid : Cell := Cell.null
  ask : Cell := Cell.null
  last_price : Cell := Cell.null
  volume : Cell := Cell.null
  open_interest : Cell := Cell.null
  implied_volatility : Cell := Cell.null
  underlying_price : Cell := Cell.null
  delta : Cell := Cell.null
  gamma : Cell := Cell.null
  theta : Cell := Cell.null
  vega : Cell := Cell.null
  rho : Cell := Cell.null
  last_trade_time : Cell := Cell.null
  bid_time : Cell := Cell.null
  ask_time : Cell := Cell.null
  open_interest_agg : Option Cell := none
deriving DecidableEq

/-- The thirteen columns of `numeric_cols` (source lines 89-93). -/
inductive NumField : Type where
  | strike | open_interest | volume | implied_volatility
  | bid | ask | last_price | underlying_price
  | delta | gamma | theta | vega | rho
deriving DecidableEq

/-- The three timestamp columns of the `dt_col` loop (source line 106). -/
inductive TField : Type where
  | last_trade_time | bid_time | ask_time
deriving DecidableEq

def getNum (r : Row) : NumField → Cell
  | .strike => r.strike
  | .open_interest => r.open_interest
  | .volume => r.volume
  | .implied_volatility => r.implied_volatility
  | .bid => r.bid
  | .ask => r.ask
  | .last_price => r.last_price
  | .underlying_price => r.underlying_price
  | .delta => r.delta
  | .gamma => r.gamma
  | .theta => r.theta
  | .vega => r.vega
  | .rho => r.rho

def setNum (r : Row) (f : NumField) (c : Cell) : Row :=
  match f with
  | .strike => { r with strike := c }
  | .open_interest => { r with open_interest := c }
  | .volume => { r with volume := c }
  | .implied_volatility => { r with implied_volatility := c }
  | .bid => { r with bid := c }
  | .ask => { r with ask := c }
  | .last_price => { r with last_price := c }
  | .underlying_price => { r with underlying_price := c }
  | .delta => { r with delta := c }
  | .gamma => { r with gamma := c }
  | .theta => { r with theta := c }
  | .vega => { r with vega := c }
  | .rho => { r with rho := c }

def getT (r : Row) : TField → Cell
  | .last_trade_time => r.last_trade_time
  | .bid_time => r.bid_time
  | .ask_time => r.ask_time

/-! ### Executable rational arithmetic

`Rat.add` is `@[irreducible]`, so sums are phrased through `mkRat`,
which evaluates; `qadd_eq_add` identifies them with `+`. -/

def qadd (a b : Rat) : Rat := mkRat (a.num * b.den + b.num * a.den) (a.den * b.den)

theorem qadd_eq_add (a b : Rat) : qadd a b = a + b := (Rat.add_def' a b).symm

def qsum (l : List Rat) : Rat := l.foldr qadd 0

theorem qsum_eq_sum (l : List Rat) : qsum l = l.sum := by
  induction l with
  | nil => rfl
  | cons a t ih => simp only [qsum, List.foldr, List.sum_cons] at ih ⊢; rw [qadd_eq_add, ih]

/-! ### Parsing primitives (model of pandas coercion) -/

def isDig (c : Char) : Bool := decide (48 ≤ c.toNat ∧ c.toNat ≤ 57)

def digVal (c : Char) : Nat := c.toNat - 48

/-- Split a character list on a separator character. -/
def splitOnChar (sep : Char) : List Char → List (List Char)
  | [] => [[]]
  | c :: cs =>
    match splitOnChar sep cs with
    | [] => if c = sep then [[], []] else [[c]]
    | g :: gs => if c = sep then [] :: g :: gs else (c :: g) :: gs

def natOfDigits (cs : List Char) : Nat :=
  cs.foldl (fun a c => 10 * a + digVal c) 0

/-- Model of `pd.to_numeric` string parsing: an optionally signed decimal
literal `ddd` or `ddd.ddd`. -/
def parsePos (cs : List Char) : Option Rat :=
  match splitOnChar '.' cs with
  | [ip] =>
    if ip ≠ [] ∧ ip.all isDig then some ((natOfDigits ip : Nat) : Rat) else none
  | [ip, fp] =>
    if ip ≠ [] ∧ ip.all isDig ∧ fp ≠ [] ∧ fp.all isDig then
      some (mkRat (natOfDigits ip * 10 ^ fp.length + natOfDigits fp) (10 ^ fp.length))
    else none
  | _ => none

def parseRat (s : String) : Option Rat :=
  match s.data with
  | '-' :: rest => (parsePos rest).map (fun q => -q)
  | cs => parsePos cs

/-- Model of pd.to_numeric with errors=coerce on one cell (source line 96):
numbers pass through, parseable strings convert, anything else → NaN. -/
def toNumeric : Cell → Cell
  | Cell.null => Cell.null
  | Cell.num q => Cell.num q
  | Cell.str s =>
    match parseRat s with
    | some q => Cell.num q
    | none => Cell.null

structure Date where
  year : Nat
  month : Nat
  day : Nat
deriving DecidableEq

structure DateTime where
  date : Date
  hour : Nat
  minute : Nat
  second : Nat
deriving DecidableEq

/-- Exactly four digits, e.g. a year group. -/
def parse4 : List Char → Option Nat
  | [a, b, c, d] =>
    if isDig a ∧ isDig b ∧ isDig c ∧ isDig d then
      some (1000 * digVal a + 100 * digVal b + 10 * digVal c + digVal d)
    else none
  | _ => none

/-- One or two digits, e.g. a month, day, hour, minute or second group. -/
def parse2 : List Char → Option Nat
  | [a] => if isDig a then some (digVal a) else none
  | [a, b] => if isDig a ∧ isDig b then some (10 * digVal a + digVal b) else none
  | _ => none

def parseDateChars (cs : List Char) : Option Date :=
  match splitOnChar '-' cs with
  | [ys, ms, ds] =>
    match parse4 ys, parse2 ms, parse2 ds with
    | some y, some m, some d =>
      if 1 ≤ m ∧ m ≤ 12 ∧ 1 ≤ d ∧ d ≤ 31 then some ⟨y, m, d⟩ else none
    | _, _, _ => none
  | _ => none

def parseTimeChars (cs : List Char) : Option (Nat × Nat × Nat) :=
  match splitOnChar ':' cs with
  | [hs, ms, ss] =>
    match parse2 hs, parse2 ms, parse2 ss with
    | some h, some m, some s =>
      if h ≤ 23 ∧ m ≤ 59 ∧ s ≤ 59 then some (h, m, s) else none
    | _, _, _ => none
  | _ => none

def parseDateTimeChars (cs : List Char) : Option DateTime :=
  match splitOnChar ' ' cs with
  | [ds] => (parseDateChars ds).map (fun d => ⟨d, 0, 0, 0⟩)
  | [ds, ts] =>
    match parseDateChars ds, parseTimeChars ts with
    | some d, some (h, m, s) => some ⟨d, h, m, s⟩
    | _, _ => none
  | _ => none

/-- Two-character zero-padded decimal (strftime `%m`, `%d`, `%H`, ...). -/
def pad2 (n : Nat) : String := ⟨[Nat.digitChar (n / 10 % 10), Nat.digitChar (n % 10)]⟩

/-- Four-character zero-padded decimal (strftime `%Y`). -/
def pad4 (n : Nat) : String :=
  ⟨[Nat.digitChar (n / 1000 % 10), Nat.digitChar (n / 100 % 10),
    Nat.digitChar (n / 10 % 10), Nat.digitChar (n % 10)]⟩

/-- strftime `%Y-%m-%d` (source line 100). -/
def fmtDate (d : Date) : String :=
  pad4 d.year ++ "-" ++ pad2 d.month ++ "-" ++ pad2 d.day

/-- strftime `%Y-%m-%d %H:%M:%S` (source line 33). -/
def fmtDateTime (dt : DateTime) : String :=
  fmtDate dt.date ++ " " ++ pad2 dt.hour ++ ":" ++ pad2 dt.minute ++ ":" ++ pad2 dt.second

def parseDateCell : Cell → Option Date
  | Cell.str s => parseDateChars s.data
  | _ => none

/-- Model of pd.to_datetime with errors=coerce followed by strftime with
format %Y-%m-%d, on one cell (source line 100): a parseable date
reformats, anything else → NaN. -/
def toDateStr (c : Cell) : Cell :=
  match parseDateCell c with
  | some d => Cell.str (fmtDate d)
  | none => Cell.null

def parseDateTimeCell : Cell → Option DateTime
  | Cell.str s => parseDateTimeChars s.data
  | _ => none

/-- `format_datetime_col` on one cell (source lines 28-35):
pd.to_datetime with errors=coerce followed by strftime with format
%Y-%m-%d %H:%M:%S.
A value the parser rejects is coerced to NaT and strftime maps NaT to
NaN, so an unparseable cell comes out null. -/
def format_datetime_cell (c : Cell) : Cell :=
  match parseDateTimeCell c with
  | some dt => Cell.str (fmtDateTime dt)
  | none => Cell.null

/-! ### The Options Record Normalizer (source lines 88-108) -/

/-- The `numeric_cols` coercion loop (source lines 94-96). -/
def coerceRow (r : Row) : Row :=
  { r with
    strike := toNumeric r.strike
    open_interest := toNumeric r.open_interest
    volume := toNumeric r.volume
    implied_volatility := toNumeric r.implied_volatility
    bid := toNumeric r.bid
    ask := toNumeric r.ask
    last_price := toNumeric r.last_price
    underlying_price := toNumeric r.underlying_price
    delta := toNumeric r.delta
    gamma := toNumeric r.gamma
    theta := toNumeric r.theta
    vega := toNumeric r.vega
    rho := toNumeric r.rho }

/-- The expiration conversion (source line 100). -/
def expRow (r : Row) : Row := { r with expiration := toDateStr r.expiration }

/-- The `dt_col` formatting loop (source lines 106-108). -/
def timeRow (r : Row) : Row :=
  { r with
    last_trade_time := format_datetime_cell r.last_trade_time
    bid_time := format_datetime_cell r.bid_time
    ask_time := format_datetime_cell r.ask_time }

/-- Expiration normalization and the dropna on the expiration column
(source lines 99-103); skipped when the `expiration` column is absent. -/
def expStage (hasExp : Bool) (rows : List Row) : List Row :=
  if hasExp then (rows.map expRow).filter (fun r => decide (r.expiration ≠ Cell.null))
  else rows

def preTime (hasExp : Bool) (rows : List Row) : List Row :=
  expStage hasExp (rows.map coerceRow)

/-- The whole normalizer: numeric coercion, then expiration
normalization with dropna, then timestamp formatting. -/
def normalizeRows (hasExp : Bool) (rows : List Row) : List Row :=
  (preTime hasExp rows).map timeRow

/-! ### The Open Interest Aggregator (source lines 250-254) -/

/-- Model of pd.to_numeric with errors=coerce followed by fillna(0), on
one open-interest cell (source line 252). -/
def oiFill (c : Cell) : Rat :=
  match toNumeric c with
  | Cell.num q => q
  | _ => 0

/-- The in-place assignment of the open_interest_agg column onto
options_df (source line 252): the aggregation step's effect on the
normalized dataframe itself. -/
def aggEffect (rows : List Row) : List Row :=
  rows.map (fun r => { r with open_interest_agg := some (Cell.num (oiFill r.open_interest)) })

/-- Forget the scratch `open_interest_agg` column of a row. -/
def stripAgg (r : Row) : Row := { r with open_interest_agg := none }

/-- The grouping key of a row: its strike when numeric.  `groupby` drops
rows whose key is NaN; in the normalized table the strike column has
been coerced, so every key cell is numeric or null. -/
def strikeKey (r : Row) : Option Rat :=
  match r.strike with
  | Cell.num q => some q
  | _ => none

/-- Insert into a strictly sorted list of distinct keys. -/
def insertKey (k : Rat) : List Rat → List Rat
  | [] => [k]
  | x :: xs => if k < x then k :: x :: xs else if k = x then x :: xs else x :: insertKey k xs

/-- The distinct non-null group keys, ascending — groupby on strike
sorts its keys (source line 253). -/
def strikeKeys (rows : List Row) : List Rat :=
  (rows.filterMap strikeKey).foldr insertKey []

/-- The within-group sum of `open_interest_agg` for one strike. -/
def totalOI (rows : List Row) (k : Rat) : Rat :=
  qsum ((rows.filter (fun r => decide (r.strike = Cell.num k))).map (fun r => oiFill r.open_interest))

/-- The aggregate oi_agg: groupby on strike summing open_interest_agg,
followed by the strictly-positive filter (source lines 253-254), as a
list of (strike, total_open_interest) pairs ascending by strike. -/
def oi_agg (rows : List Row) : List (Rat × Rat) :=
  ((strikeKeys rows).map (fun k => (k, totalOI rows k))).filter (fun p => decide (0 < p.2))

/-- Total open interest over the whole aggregate output. -/
def aggSum (l : List (Rat × Rat)) : Rat := qsum (l.map Prod.snd)

/-! ### The Expiration Filter (source line 139) -/

/-- Lexicographic order on character lists (pandas string comparison). -/
def charListLe : List Char → List Char → Bool
  | [], _ => true
  | _ :: _, [] => false
  | a :: as, b :: bs =>
    if a.toNat < b.toNat then true
    else if b.toNat < a.toNat then false
    else charListLe as bs

/-- Total order on cells for `sort_values`: numbers, then strings, with
null (NaN) last, matching the default na_position last.  (pandas raises on
mixed-type columns; the cross-type branch is a fixed arbitrary choice.) -/
def cellLe : Cell → Cell → Bool
  | _, Cell.null => true
  | Cell.null, _ => false
  | Cell.num a, Cell.num b => decide (a ≤ b)
  | Cell.num _, Cell.str _ => true
  | Cell.str _, Cell.num _ => false
  | Cell.str a, Cell.str b => charListLe a.data b.data

def cellLt (a b : Cell) : Bool := cellLe a b && !(cellLe b a)

/-- Key order of sort_values by strike then option_type (source line 139). -/
def keyLe (a b : Row) : Bool :=
  cellLt a.strike b.strike || (!(cellLt b.strike a.strike) && cellLe a.option_type b.option_type)

def insertRow (r : Row) : List Row → List Row
  | [] => [r]
  | x :: xs => if keyLe r x then r :: x :: xs else x :: insertRow r xs

/-- Deterministic comparison sort by `keyLe`. -/
def sortRows (l : List Row) : List Row := l.foldr insertRow []

/-- The expiration filter filtered_df: select the rows whose expiration
equals the chosen value, then sort_values by strike then option_type
(source line 139). -/
def filtered_df (rows : List Row) (sel : String) : List Row :=
  sortRows (rows.filter (fun r => decide (r.expiration = Cell.str sel)))

/-! ### Structural lemmas about the pipeline -/

theorem coerceRow_expiration (r : Row) : (coerceRow r).expiration = r.expiration := rfl

theorem expRow_expiration (r : Row) : (expRow r).expiration = toDateStr r.expiration := rfl

theorem timeRow_expiration (r : Row) : (timeRow r).expiration = r.expiration := rfl

theorem setNum_expiration (r : Row) (f : NumField) (c : Cell) :
    (setNum r f c).expiration = r.expiration := by
  cases f <;> rfl

theorem getNum_coerceRow (r : Row) (f : NumField) :
    getNum (coerceRow r) f = toNumeric (getNum r f) := by
  cases f <;> rfl

theorem coerceRow_setNum_null (r : Row) (f : NumField)
    (hf : toNumeric (getNum r f) = Cell.null) :
    coerceRow (setNum r f Cell.null) = coerceRow r := by
  cases f <;> simp_all [coerceRow, setNum, getNum, toNumeric]

theorem normalizeRows_append (b : Bool) (l1 l2 : List Row) :
    normalizeRows b (l1 ++ l2) = normalizeRows b l1 ++ normalizeRows b l2 := by
  cases b <;> simp [normalizeRows, preTime, expStage, List.map_append, List.filter_append]

theorem normalizeRows_singleton (r : Row) :
    normalizeRows true [r] =
      if toDateStr r.expiration = Cell.null then [] else [timeRow (expRow (coerceRow r))] := by
  by_cases h : toDateStr r.expiration = Cell.null
  · simp [normalizeRows, preTime, expStage, expRow_expiration, coerceRow_expiration, h]
  · simp [normalizeRows, preTime, expStage, expRow_expiration, coerceRow_expiration, h]

/-! ### Ordering facts about the aggregate's group keys -/

theorem insertKey_mem (k a : Rat) (l : List Rat) : a ∈ insertKey k l ↔ a = k ∨ a ∈ l := by
  induction l with
  | nil => simp [insertKey]
  | cons x xs ih =>
    by_cases h1 : k < x
    · simp [insertKey, h1, List.mem_cons]
    · by_cases h2 : k = x
      · subst h2
        simp [insertKey, h1, List.mem_cons]
      · simp [insertKey, h1, h2, List.mem_cons, ih]
        tauto

theorem insertKey_pairwise (k : Rat) (l : List Rat) (h : l.Pairwise (· < ·)) :
    (insertKey k l).Pairwise (· < ·) := by
  induction l with
  | nil => simp [insertKey]
  | cons x xs ih =>
    rcases List.pairwise_cons.1 h with ⟨hx, hxs⟩
    by_cases h1 : k < x
    · simp only [insertKey, if_pos h1]
      refine List.pairwise_cons.2 ⟨?_, h⟩
      intro b hb
      rcases List.mem_cons.1 hb with rfl | hbxs
      · exact h1
      · exact lt_trans h1 (hx b hbxs)
    · by_cases h2 : k = x
      · simp only [insertKey, if_neg h1, if_pos h2]
        exact h
      · have hxk : x < k := by
          rcases lt_trichotomy k x with h3 | h3 | h3
          · exact absurd h3 h1
          · exact absurd h3 h2
          · exact h3
        simp only [insertKey, if_neg h1, if_neg h2]
        refine List.pairwise_cons.2 ⟨?_, ih hxs⟩
        intro b hb
        rcases (insertKey_mem k b xs).1 hb with rfl | hbxs
        · exact hxk
        · exact hx b hbxs

theorem foldr_insertKey_pairwise (l : List Rat) : (l.foldr insertKey []).Pairwise (· < ·) := by
  induction l with
  | nil => simp
  | cons x xs ih => exact insertKey_pairwise x _ ih

theorem foldr_insertKey_mem (l : List Rat) (a : Rat) : a ∈ l.foldr insertKey [] ↔ a ∈ l := by
  induction l with
  | nil => simp
  | cons x xs ih => simp [insertKey_mem, ih]

theorem strikeKeys_pairwise (rows : List Row) : (strikeKeys rows).Pairwise (· < ·) :=
  foldr_insertKey_pairwise _

theorem strikeKeys_mem (rows : List Row) (k : Rat) :
    k ∈ strikeKeys rows ↔ ∃ r ∈ rows, strikeKey r = some k := by
  rw [strikeKeys, foldr_insertKey_mem, List.mem_filterMap]

theorem strikeKeys_nodup (rows : List Row) : (strikeKeys rows).Nodup :=
  (strikeKeys_pairwise rows).imp ne_of_lt

theorem oi_agg_fst_sublist (rows : List Row) :
    ((oi_agg rows).map Prod.fst).Sublist (strikeKeys rows) := by
  have h1 := (@List.filter_sublist (Rat × Rat) (fun p => decide (0 < p.2))
    ((strikeKeys rows).map (fun k => (k, totalOI rows k)))).map Prod.fst
  rw [List.map_map] at h1
  have h2 : (Prod.fst ∘ fun k => (k, totalOI rows k)) = id := rfl
  rw [h2, List.map_id] at h1
  unfold oi_agg
  exact h1

theorem oi_agg_fst_pairwise (rows : List Row) :
    ((oi_agg rows).map Prod.fst).Pairwise (· < ·) :=
  (strikeKeys_pairwise rows).sublist (oi_agg_fst_sublist rows)

theorem oi_agg_mem (rows : List Row) (p : Rat × Rat) :
    p ∈ oi_agg rows ↔ p.1 ∈ strikeKeys rows ∧ p.2 = totalOI rows p.1 ∧ 0 < p.2 := by
  simp only [oi_agg, List.mem_filter, List.mem_map, decide_eq_true_eq]
  constructor
  · rintro ⟨⟨k, hk, rfl⟩, hpos⟩
    exact ⟨hk, rfl, hpos⟩
  · rintro ⟨hk, hp2, hpos⟩
    refine ⟨⟨p.1, hk, ?_⟩, hpos⟩
    rw [← hp2]

/-! ### Sums of open interest: claim-side quantities -/

/-- A coerced open-interest cell is numeric or null (never a string);
this is what `pd.to_numeric` at source line 96 leaves in the column. -/
def numOrNull : Cell → Bool
  | Cell.str _ => false
  | _ => true

/-- The non-null open-interest value of a row (0 when null). -/
def oiVal (r : Row) : Rat :=
  match r.open_interest with
  | Cell.num q => q
  | _ => 0

/-- Does the row's strike have strictly positive total open interest? -/
def posStrikeOI (rows : List Row) (r : Row) : Bool :=
  match r.strike with
  | Cell.num q => decide (0 < totalOI rows q)
  | _ => false

/-- Does the row's strike have nonzero total open interest?  (The
spec's guarantee is phrased with this condition.) -/
def nzStrikeOI (rows : List Row) (r : Row) : Bool :=
  match r.strike with
  | Cell.num q => decide (totalOI rows q ≠ 0)
  | _ => false

/-- Sum of the non-null open-interest values over the rows whose
strike's total is strictly positive. -/
def inputOISum (rows : List Row) : Rat :=
  qsum ((rows.filter (fun r => posStrikeOI rows r && decide (r.open_interest ≠ Cell.null))).map oiVal)

/-- Sum of the non-null open-interest values over the rows whose
strike's total is nonzero — the spec's input-side quantity. -/
def inputOISumNZ (rows : List Row) : Rat :=
  qsum ((rows.filter (fun r => nzStrikeOI rows r && decide (r.open_interest ≠ Cell.null))).map oiVal)

/-- Helper: the row's numeric strike lies in the key list `K`. -/
def memStrike (K : List Rat) (r : Row) : Bool :=
  match strikeKey r with
  | some k => decide (k ∈ K)
  | none => false

theorem sum_filter_or_split (l : List Row) (p q : Row → Bool) (f : Row → Rat)
    (hdis : ∀ r, ¬(p r = true ∧ q r = true)) :
    ((l.filter (fun r => p r || q r)).map f).sum
      = ((l.filter p).map f).sum + ((l.filter q).map f).sum := by
  induction l with
  | nil => simp
  | cons a t ih =>
    by_cases hp : p a = true
    · have hq : q a = false := by
        cases hqa : q a
        · rfl
        · exact absurd ⟨hp, hqa⟩ (hdis a)
      simp [List.filter_cons, hp, hq, ih]
      ring
    · have hp2 : p a = false := by
        cases hpa : p a
        · rfl
        · exact absurd hpa hp
      by_cases hq : q a = true
      · simp [List.filter_cons, hp2, hq, ih]
        ring
      · have hq2 : q a = false := by
          cases hqa : q a
          · rfl
          · exact absurd hqa hq
        simp [List.filter_cons, hp2, hq2, ih]

theorem totalOI_eq_sum (rows : List Row) (k : Rat) :
    totalOI rows k
      = ((rows.filter (fun r => decide (r.strike = Cell.num k))).map
          (fun r => oiFill r.open_interest)).sum := by
  rw [totalOI, qsum_eq_sum]

theorem memStrike_nil (r : Row) : memStrike [] r = false := by
  cases hs : r.strike <;> simp [memStrike, strikeKey, hs]

theorem memStrike_cons (k : Rat) (K : List Rat) (r : Row) :
    memStrike (k :: K) r = (decide (r.strike = Cell.num k) || memStrike K r) := by
  cases hs : r.strike with
  | null => simp [memStrike, strikeKey, hs]
  | str s => simp [memStrike, strikeKey, hs]
  | num q =>
    simp only [memStrike, strikeKey, hs, List.mem_cons]
    by_cases hq : q = k
    · subst hq
      simp
    · have : ¬Cell.num q = Cell.num k := by simp [hq]
      simp [hq, this]

theorem sum_over_keys (rows : List Row) (K : List Rat) (hnd : K.Nodup) :
    (K.map (totalOI rows)).sum
      = ((rows.filter (memStrike K)).map (fun r => oiFill r.open_interest)).sum := by
  induction K with
  | nil =>
    have hempty : rows.filter (memStrike []) = [] := by
      rw [List.filter_eq_nil_iff]
      intro a _
      simp [memStrike_nil]
    simp [hempty]
  | cons k K ih =>
    rcases List.nodup_cons.1 hnd with ⟨hk, hnd2⟩
    have hcongr : rows.filter (memStrike (k :: K))
        = rows.filter (fun r => decide (r.strike = Cell.num k) || memStrike K r) := by
      apply List.filter_congr
      intro r _
      exact memStrike_cons k K r
    have hdis : ∀ r : Row, ¬(decide (r.strike = Cell.num k) = true ∧ memStrike K r = true) := by
      rintro r ⟨h1, h2⟩
      have hs : r.strike = Cell.num k := of_decide_eq_true h1
      rw [memStrike, strikeKey, hs] at h2
      exact hk (of_decide_eq_true h2)
    calc ((k :: K).map (totalOI rows)).sum
        = totalOI rows k + (K.map (totalOI rows)).sum := by simp
      _ = ((rows.filter (fun r => decide (r.strike = Cell.num k))).map
            (fun r => oiFill r.open_interest)).sum
          + ((rows.filter (memStrike K)).map (fun r => oiFill r.open_interest)).sum := by
          rw [totalOI_eq_sum, ih hnd2]
      _ = ((rows.filter (fun r => decide (r.strike = Cell.num k) || memStrike K r)).map
            (fun r => oiFill r.open_interest)).sum := by
          rw [sum_filter_or_split rows _ _ _ hdis]
      _ = ((rows.filter (memStrike (k :: K))).map (fun r => oiFill r.open_interest)).sum := by
          rw [hcongr]

theorem filter_memStrike_keys (rows : List Row) (P : Rat → Bool) :
    rows.filter (memStrike ((strikeKeys rows).filter P))
      = rows.filter (fun r =>
          match r.strike with
          | Cell.num q => P q
          | _ => false) := by
  apply List.filter_congr
  intro r hr
  cases hs : r.strike with
  | null => simp [memStrike, strikeKey, hs]
  | str s => simp [memStrike, strikeKey, hs]
  | num q =>
    have hq : q ∈ strikeKeys rows :=
      (strikeKeys_mem rows q).2 ⟨r, hr, by rw [strikeKey, hs]⟩
    simp [memStrike, strikeKey, hs, List.mem_filter, hq]

theorem oiFill_null : oiFill Cell.null = 0 := rfl

theorem oiFill_num (q : Rat) : oiFill (Cell.num q) = q := rfl

theorem oiVal_num (r : Row) (q : Rat) (h : r.open_interest = Cell.num q) : oiVal r = q := by
  rw [oiVal, h]

theorem sum_oiFill_eq_oiVal (l : List Row) (p : Row → Bool)
    (h : ∀ r ∈ l, numOrNull r.open_interest = true) :
    ((l.filter p).map (fun r => oiFill r.open_interest)).sum
      = ((l.filter (fun r => p r && decide (r.open_interest ≠ Cell.null))).map oiVal).sum := by
  induction l with
  | nil => simp
  | cons a t ih =>
    have ha := h a (List.mem_cons_self a t)
    have ht : ∀ r ∈ t, numOrNull r.open_interest = true :=
      fun r hr => h r (List.mem_cons_of_mem a hr)
    by_cases hp : p a = true
    · cases hoi : a.open_interest with
      | null => simp [List.filter_cons, hp, hoi, oiFill_null, ih ht]
      | num q => simp [List.filter_cons, hp, hoi, oiFill_num, oiVal_num a q hoi, ih ht]
      | str s =>
        rw [hoi] at ha
        simp [numOrNull] at ha
    · have hp2 : p a = false := by
        cases hpa : p a
        · rfl
        · exact absurd hpa hp
      simp [List.filter_cons, hp2, ih ht]

theorem aggSum_eq_inputOISum (rows : List Row)
    (h : ∀ r ∈ rows, numOrNull r.open_interest = true) :
    aggSum (oi_agg rows) = inputOISum rows := by
  have hstep1 : aggSum (oi_agg rows)
      = ((((strikeKeys rows).filter (fun k => decide (0 < totalOI rows k))).map
          (fun k => (k, totalOI rows k))).map Prod.snd).sum := by
    rw [aggSum, qsum_eq_sum, oi_agg, List.filter_map]
    rfl
  have hstep2 : ((((strikeKeys rows).filter (fun k => decide (0 < totalOI rows k))).map
          (fun k => (k, totalOI rows k))).map Prod.snd).sum
      = (((strikeKeys rows).filter (fun k => decide (0 < totalOI rows k))).map
          (totalOI rows)).sum := by
    rw [List.map_map]
    rfl
  have hnd : ((strikeKeys rows).filter (fun k => decide (0 < totalOI rows k))).Nodup :=
    (strikeKeys_nodup rows).filter _
  have hstep3 := sum_over_keys rows _ hnd
  have hstep4 := filter_memStrike_keys rows (fun k => decide (0 < totalOI rows k))
  have hstep5 := sum_oiFill_eq_oiVal rows (posStrikeOI rows) h
  rw [hstep1, hstep2, hstep3, hstep4]
  rw [inputOISum, qsum_eq_sum]
  have hpos : (fun r : Row =>
      match r.strike with
      | Cell.num q => decide (0 < totalOI rows q)
      | _ => false) = posStrikeOI rows := by
    funext r
    rw [posStrikeOI]
  rw [hpos, hstep5]

theorem totalOI_eq_zero_of_all_null (rows : List Row) (k : Rat)
    (h : ∀ r ∈ rows, r.strike = Cell.num k → r.open_interest = Cell.null) :
    totalOI rows k = 0 := by
  rw [totalOI_eq_sum]
  apply List.sum_eq_zero
  intro x hx
  rcases List.mem_map.1 hx with ⟨r, hrf, rfl⟩
  rcases List.mem_filter.1 hrf with ⟨hr, hsk⟩
  have hoi := h r hr (of_decide_eq_true hsk)
  rw [hoi, oiFill_null]

theorem not_mem_oi_agg_of_total_zero (rows : List Row) (k : Rat)
    (h : totalOI rows k = 0) : k ∉ (oi_agg rows).map Prod.fst := by
  intro hmem
  rcases List.mem_map.1 hmem with ⟨p, hp, rfl⟩
  rcases (oi_agg_mem rows p).1 hp with ⟨_, hp2, hpos⟩
  rw [hp2, h] at hpos
  exact lt_irrefl 0 hpos

theorem normalizeRows_numOrNull (hasExp : Bool) (rows : List Row) :
    ∀ r ∈ normalizeRows hasExp rows, numOrNull r.open_interest = true := by
  intro r hr
  rcases List.mem_map.1 hr with ⟨x, hx, rfl⟩
  have hx2 : ∃ y, x.open_interest = (coerceRow y).open_interest := by
    cases hasExp with
    | false =>
      rcases List.mem_map.1 (by simpa [preTime, expStage] using hx) with ⟨y, _, rfl⟩
      exact ⟨y, rfl⟩
    | true =>
      have hx' : x ∈ ((rows.map coerceRow).map expRow).filter
          (fun r => decide (r.expiration ≠ Cell.null)) := hx
      rcases List.mem_filter.1 hx' with ⟨hx3, _⟩
      rcases List.mem_map.1 hx3 with ⟨z, hz, rfl⟩
      rcases List.mem_map.1 hz with ⟨y, _, rfl⟩
      exact ⟨y, rfl⟩
  rcases hx2 with ⟨y, hy⟩
  have : (timeRow x).open_interest = x.open_interest := rfl
  rw [this, hy]
  show numOrNull (toNumeric y.open_interest) = true
  cases y.open_interest with
  | null => rfl
  | num q => rfl
  | str s =>
    rw [toNumeric]
    cases parseRat s <;> rfl

/-! ### Order facts for `sort_values` -/

theorem charListLe_total (a b : List Char) : charListLe a b = true ∨ charListLe b a = true := by
  induction a generalizing b with
  | nil => left; rfl
  | cons x xs ih =>
    cases b with
    | nil => right; rfl
    | cons y ys =>
      rcases Nat.lt_trichotomy x.toNat y.toNat with h | h | h
      · left; simp [charListLe, h]
      · rcases ih ys with h2 | h2
        · left; simp [charListLe, h, h2]
        · right; simp [charListLe, h, h2]
      · right; simp [charListLe, h]

theorem charListLe_trans (a b c : List Char) (h1 : charListLe a b = true)
    (h2 : charListLe b c = true) : charListLe a c = true := by
  induction a generalizing b c with
  | nil => rfl
  | cons x xs ih =>
    cases b with
    | nil => simp [charListLe] at h1
    | cons y ys =>
      cases c with
      | nil => simp [charListLe] at h2
      | cons z zs =>
        rcases Nat.lt_trichotomy x.toNat y.toNat with hxy | hxy | hxy
        · rcases Nat.lt_trichotomy y.toNat z.toNat with hyz | hyz | hyz
          · simp [charListLe, lt_trans hxy hyz]
          · simp [charListLe, hyz ▸ hxy]
          · rw [charListLe, if_neg (by omega), if_pos hyz] at h2
            exact absurd h2 (by simp)
        · rw [charListLe, if_neg (by omega), if_neg (by omega)] at h1
          rcases Nat.lt_trichotomy y.toNat z.toNat with hyz | hyz | hyz
          · simp [charListLe, hxy ▸ hyz]
          · rw [charListLe, if_neg (by omega), if_neg (by omega)] at h2
            rw [charListLe, if_neg (by omega), if_neg (by omega)]
            exact ih ys zs h1 h2
          · rw [charListLe, if_neg (by omega), if_pos hyz] at h2
            exact absurd h2 (by simp)
        · rw [charListLe, if_neg (by omega), if_pos hxy] at h1
          exact absurd h1 (by simp)

theorem cellLe_total (a b : Cell) : cellLe a b = true ∨ cellLe b a = true := by
  cases a with
  | null =>
    cases b with
    | null => left; rfl
    | num q => right; rfl
    | str s => right; rfl
  | num q =>
    cases b with
    | null => left; rfl
    | num p =>
      rcases le_total q p with h | h
      · left; simp [cellLe, h]
      · right; simp [cellLe, h]
    | str s => left; rfl
  | str s =>
    cases b with
    | null => left; rfl
    | num p => right; rfl
    | str t =>
      rcases charListLe_total s.data t.data with h | h
      · left; simp [cellLe, h]
      · right; simp [cellLe, h]

theorem cellLe_trans (a b c : Cell) (h1 : cellLe a b = true) (h2 : cellLe b c = true) :
    cellLe a c = true := by
  cases a <;> cases b <;> cases c <;> simp_all [cellLe]
  · exact le_trans h1 h2
  · exact charListLe_trans _ _ _ h1 h2

theorem cellLt_iff (x y : Cell) :
    cellLt x y = true ↔ (cellLe x y = true ∧ cellLe y x = false) := by
  rw [cellLt, Bool.and_eq_true, Bool.not_eq_true']

theorem cellLe_of_not_lt (x y : Cell) (h : cellLt y x = false) : cellLe x y = true := by
  rcases cellLe_total x y with h2 | h2
  · exact h2
  · rcases Bool.eq_false_or_eq_true (cellLe x y) with h3 | h3
    · exact h3
    · rw [cellLt, h2, h3] at h
      exact absurd h (by simp)

theorem keyLe_total (a b : Row) : keyLe a b = true ∨ keyLe b a = true := by
  by_cases h1 : cellLt a.strike b.strike = true
  · left; simp [keyLe, h1]
  · by_cases h2 : cellLt b.strike a.strike = true
    · right; simp [keyLe, h2]
    · rcases cellLe_total a.option_type b.option_type with h3 | h3
      · left; simp [keyLe, h1, h2, h3]
      · right; simp [keyLe, h1, h2, h3]

theorem keyLe_trans (a b c : Row) (h1 : keyLe a b = true) (h2 : keyLe b c = true) :
    keyLe a c = true := by
  rw [keyLe, Bool.or_eq_true, Bool.and_eq_true] at h1 h2
  have hstrike : ∀ x y : Cell, cellLt x y = false → cellLe y x = true :=
    fun x y h => cellLe_of_not_lt y x h
  rcases h1 with h1 | ⟨h1a, h1b⟩
  · rcases (cellLt_iff _ _).1 h1 with ⟨hab, hba⟩
    rcases h2 with h2 | ⟨h2a, h2b⟩
    · rcases (cellLt_iff _ _).1 h2 with ⟨hbc, hcb⟩
      have hac : cellLe a.strike c.strike = true := cellLe_trans _ _ _ hab hbc
      have hca : cellLe c.strike a.strike = false := by
        rcases Bool.eq_false_or_eq_true (cellLe c.strike a.strike) with h | h
        · have := cellLe_trans _ _ _ h hab
          rw [this] at hcb
          exact absurd hcb (by simp)
        · exact h
      rw [keyLe, (cellLt_iff _ _).2 ⟨hac, hca⟩]
      rfl
    · rw [Bool.not_eq_true'] at h2a
      have hbc : cellLe b.strike c.strike = true := hstrike _ _ h2a
      have hac : cellLe a.strike c.strike = true := cellLe_trans _ _ _ hab hbc
      have hca : cellLe c.strike a.strike = false := by
        rcases Bool.eq_false_or_eq_true (cellLe c.strike a.strike) with h | h
        · have := cellLe_trans _ _ _ hbc h
          rw [this] at hba
          exact absurd hba (by simp)
        · exact h
      rw [keyLe, (cellLt_iff _ _).2 ⟨hac, hca⟩]
      rfl
  · rw [Bool.not_eq_true'] at h1a
    have hab : cellLe a.strike b.strike = true := hstrike _ _ h1a
    rcases h2 with h2 | ⟨h2a, h2b⟩
    · rcases (cellLt_iff _ _).1 h2 with ⟨hbc, hcb⟩
      have hac : cellLe a.strike c.strike = true := cellLe_trans _ _ _ hab hbc
      have hca : cellLe c.strike a.strike = false := by
        rcases Bool.eq_false_or_eq_true (cellLe c.strike a.strike) with h | h
        · have := cellLe_trans _ _ _ h hab
          rw [this] at hcb
          exact absurd hcb (by simp)
        · exact h
      rw [keyLe, (cellLt_iff _ _).2 ⟨hac, hca⟩]
      rfl
    · rw [Bool.not_eq_true'] at h2a
      have hbc : cellLe b.strike c.strike = true := hstrike _ _ h2a
      have hca : cellLt c.strike a.strike = false := by
        rcases Bool.eq_false_or_eq_true (cellLt c.strike a.strike) with h | h
        · rcases (cellLt_iff _ _).1 h with ⟨hca2, hac2⟩
          have := cellLe_trans _ _ _ hab hbc
          rw [this] at hac2
          exact absurd hac2 (by simp)
        · exact h
      have htt : cellLe a.option_type c.option_type = true := cellLe_trans _ _ _ h1b h2b
      rw [keyLe, Bool.or_eq_true, Bool.and_eq_true]
      right
      exact ⟨by rw [hca]; rfl, htt⟩

theorem insertRow_mem (r a : Row) (l : List Row) : a ∈ insertRow r l ↔ a = r ∨ a ∈ l := by
  induction l with
  | nil => simp [insertRow]
  | cons x xs ih =>
    by_cases h1 : keyLe r x = true
    · simp [insertRow, h1, List.mem_cons]
    · simp [insertRow, h1, List.mem_cons, ih]
      tauto

theorem insertRow_perm (r : Row) (l : List Row) : (insertRow r l).Perm (r :: l) := by
  induction l with
  | nil => exact List.Perm.refl _
  | cons x xs ih =>
    by_cases h1 : keyLe r x = true
    · simp only [insertRow, if_pos h1]
      exact List.Perm.refl _
    · simp only [insertRow, if_neg h1]
      exact (ih.cons x).trans (List.Perm.swap r x xs)

theorem insertRow_pairwise (r : Row) (l : List Row)
    (h : l.Pairwise (fun a b => keyLe a b = true)) :
    (insertRow r l).Pairwise (fun a b => keyLe a b = true) := by
  induction l with
  | nil => simp [insertRow]
  | cons x xs ih =>
    rcases List.pairwise_cons.1 h with ⟨hx, hxs⟩
    by_cases h1 : keyLe r x = true
    · simp only [insertRow, if_pos h1]
      refine List.pairwise_cons.2 ⟨?_, h⟩
      intro b hb
      rcases List.mem_cons.1 hb with rfl | hbxs
      · exact h1
      · exact keyLe_trans r x b h1 (hx b hbxs)
    · simp only [insertRow, if_neg h1]
      refine List.pairwise_cons.2 ⟨?_, ih hxs⟩
      intro b hb
      rcases (insertRow_mem r b xs).1 hb with rfl | hbxs
      · rcases keyLe_total x b with h2 | h2
        · exact h2
        · exact absurd h2 h1
      · exact hx b hbxs

theorem sortRows_perm (l : List Row) : (sortRows l).Perm l := by
  induction l with
  | nil => exact List.Perm.refl _
  | cons x xs ih => exact (insertRow_perm x (xs.foldr insertRow [])).trans (ih.cons x)

theorem sortRows_pairwise (l : List Row) :
    (sortRows l).Pairwise (fun a b => keyLe a b = true) := by
  induction l with
  | nil => simp [sortRows]
  | cons x xs ih => exact insertRow_pairwise x _ ih

/-! ### Per-field behaviour of the timestamp and date stages -/

theorem getT_timeRow (r : Row) (f : TField) :
    getT (timeRow r) f = format_datetime_cell (getT r f) := by
  cases f <;> rfl

theorem normalizeRows_length_le (b : Bool) (rows : List Row) :
    (normalizeRows b rows).length ≤ rows.length := by
  cases b with
  | false => simp [normalizeRows, preTime, expStage]
  | true =>
    have h1 : (normalizeRows true rows).length
        = (((rows.map coerceRow).map expRow).filter
            (fun r => decide (r.expiration ≠ Cell.null))).length := by
      simp [normalizeRows, preTime, expStage]
    rw [h1]
    calc (((rows.map coerceRow).map expRow).filter
            (fun r => decide (r.expiration ≠ Cell.null))).length
        ≤ ((rows.map coerceRow).map expRow).length := List.length_filter_le _ _
      _ = rows.length := by simp

theorem normalizeRows_length_lt (rows : List Row)
    (h : (normalizeRows true rows).length < rows.length) :
    ∃ r ∈ rows, toDateStr r.expiration = Cell.null := by
  by_contra hno
  push_neg at hno
  have hall : ∀ x ∈ (rows.map coerceRow).map expRow,
      decide (x.expiration ≠ Cell.null) = true := by
    intro x hx
    rcases List.mem_map.1 hx with ⟨z, hz, rfl⟩
    rcases List.mem_map.1 hz with ⟨y, hy, rfl⟩
    have : (expRow (coerceRow y)).expiration = toDateStr y.expiration := by
      rw [expRow_expiration, coerceRow_expiration]
    rw [this]
    exact decide_eq_true (hno y hy)
  have hfeq : ((rows.map coerceRow).map expRow).filter
      (fun r => decide (r.expiration ≠ Cell.null)) = (rows.map coerceRow).map expRow :=
    List.filter_eq_self.2 hall
  have hlen : (normalizeRows true rows).length = rows.length := by
    rw [normalizeRows, preTime, expStage, if_pos rfl, hfeq]
    simp
  omega

theorem normalizeRows_singleton_of_parse (r : Row) (d : Date)
    (h : parseDateCell r.expiration = some d) :
    normalizeRows true [r] = [timeRow (expRow (coerceRow r))] ∧
      (timeRow (expRow (coerceRow r))).expiration = Cell.str (fmtDate d) := by
  have hds : toDateStr r.expiration = Cell.str (fmtDate d) := by
    rw [toDateStr, h]
  constructor
  · rw [normalizeRows_singleton, if_neg (by rw [hds]; simp)]
  · rw [timeRow_expiration, expRow_expiration, coerceRow_expiration, hds]

/-! ### Bounds carried by a successful date parse -/

theorem isDig_bounds (c : Char) (h : isDig c = true) : digVal c ≤ 9 := by
  rw [isDig] at h
  have h2 := of_decide_eq_true h
  rw [digVal]
  omega

theorem parse4_lt (cs : List Char) (y : Nat) (h : parse4 cs = some y) : y < 10000 := by
  unfold parse4 at h
  split at h
  · split at h
    · rename_i a b c d hdig
      rcases hdig with ⟨ha, hb, hc, hd⟩
      have h1 := isDig_bounds a ha
      have h2 := isDig_bounds b hb
      have h3 := isDig_bounds c hc
      have h4 := isDig_bounds d hd
      injection h with h
      omega
    · exact absurd h (by simp)
  · exact absurd h (by simp)

theorem parseDateChars_bounds (cs : List Char) (d : Date) (h : parseDateChars cs = some d) :
    1 ≤ d.month ∧ d.month ≤ 12 ∧ 1 ≤ d.day ∧ d.day ≤ 31 ∧ d.year < 10000 := by
  unfold parseDateChars at h
  split at h
  · rename_i ys ms ds
    split at h
    · rename_i y m dd hy hm hd
      split at h
      · rename_i hcond
        injection h with h
        subst h
        rcases hcond with ⟨hm1, hm2, hd1, hd2⟩
        exact ⟨hm1, hm2, hd1, hd2, parse4_lt _ y hy⟩
      · exact absurd h (by simp)
    · exact absurd h (by simp)
  · exact absurd h (by simp)

theorem mem_normalizeRows_true (rows : List Row) (r : Row)
    (hr : r ∈ normalizeRows true rows) :
    ∃ y ∈ rows, r = timeRow (expRow (coerceRow y)) ∧ toDateStr y.expiration ≠ Cell.null := by
  rcases List.mem_map.1 hr with ⟨x, hx, rfl⟩
  have hx' : x ∈ ((rows.map coerceRow).map expRow).filter
      (fun r => decide (r.expiration ≠ Cell.null)) := hx
  rcases List.mem_filter.1 hx' with ⟨hx2, hxp⟩
  rcases List.mem_map.1 hx2 with ⟨z, hz, rfl⟩
  rcases List.mem_map.1 hz with ⟨y, hy, rfl⟩
  refine ⟨y, hy, rfl, ?_⟩
  have h2 := of_decide_eq_true hxp
  rwa [expRow_expiration, coerceRow_expiration] at h2

/-! ### Concrete rows used by the scenario checks -/

theorem normalizeRows_true_eq (l : List Row) :
    normalizeRows true l
      = (((l.map coerceRow).map expRow).filter
          (fun r => decide (r.expiration ≠ Cell.null))).map timeRow := by
  rw [normalizeRows, preTime, expStage, if_pos rfl]

/-- Scenario A call row: strike 100, OI 50. -/
def wRowCall : Row :=
  { strike := Cell.num 100, option_type := Cell.str "call",
    open_interest := Cell.num 50, expiration := Cell.str "2024-01-19" }

/-- Scenario A put row: strike 100, OI 30, a different expiration. -/
def wRowPut : Row :=
  { strike := Cell.num 100, option_type := Cell.str "put",
    open_interest := Cell.num 30, expiration := Cell.str "2024-02-16" }

/-- Scenario B row: strike 90, OI 0. -/
def wRowZero : Row := { strike := Cell.num 90, open_interest := Cell.num 0 }

/-- Scenario B row: strike 95, OI null. -/
def wRowNull : Row := { strike := Cell.num 95, open_interest := Cell.null }

/-- A raw row whose open interest coerces to the negative number -2. -/
def wRowNeg : Row :=
  { strike := Cell.str "100", open_interest := Cell.str "-2",
    expiration := Cell.str "2024-01-19" }

/-- A raw row with an unparseable timestamp value. -/
def wRowTime : Row :=
  { expiration := Cell.str "2024-01-19", last_trade_time := Cell.str "garbage" }

/-- A raw row whose expiration is missing (null). -/
def wRowNullExp : Row := { strike := Cell.num 100 }

/-- A raw row whose expiration is present but unparseable. -/
def wRowBadExp : Row := { strike := Cell.num 100, expiration := Cell.str "not-a-date" }

/-- A raw row with a valid (unpadded) expiration. -/
def wRowGood : Row := { strike := Cell.num 100, expiration := Cell.str "2024-1-19" }

/-- Scenario D row: unparseable implied volatility, valid expiration. -/
def wRowIV : Row :=
  { strike := Cell.num 100, implied_volatility := Cell.str "N/A",
    expiration := Cell.str "2024-01-19" }

/-- A normalized row on which the aggregation step's column assignment acts. -/
def wRowAgg : Row :=
  { strike := Cell.num 100, open_interest := Cell.num 5,
    expiration := Cell.str "2024-01-19" }

/-! ### The claims -/

/-- Claim C1, counterexample: the aggregate's total does NOT always equal
the sum of non-null open interest over rows whose strike total is
nonzero.  On the normalized image of a raw row with open interest "-2"
the strike total is -2 (nonzero), yet line 254 keeps only totals `> 0`,
so the aggregate output is empty: 0 on the left, -2 on the right. -/
theorem c1_counterexample :
    aggSum (oi_agg (normalizeRows true [wRowNeg]))
      ≠ inputOISumNZ (normalizeRows true [wRowNeg]) := by
  decide

/-- Claim C1 (amended: the strike's total must be strictly positive, not
merely nonzero): for every normalized input sequence, the sum of
total_open_interest over the aggregate output equals the sum of the
non-null open_interest values of the rows whose strike's total is
strictly positive; and a strike all of whose contracts have null open
interest never appears in the output. -/
theorem c1_strike_additivity (raws : List Row) (hasExp : Bool) :
    aggSum (oi_agg (normalizeRows hasExp raws))
        = inputOISum (normalizeRows hasExp raws) ∧
      ∀ k : Rat,
        (∀ r ∈ normalizeRows hasExp raws,
            r.strike = Cell.num k → r.open_interest = Cell.null) →
        k ∉ (oi_agg (normalizeRows hasExp raws)).map Prod.fst := by
  refine ⟨aggSum_eq_inputOISum _ (normalizeRows_numOrNull hasExp raws), ?_⟩
  intro k hk
  exact not_mem_oi_agg_of_total_zero _ k (totalOI_eq_zero_of_all_null _ k hk)

/-- Witness for C1's amended theorem at a concrete normalized input. -/
theorem c1_witness :
    aggSum (oi_agg (normalizeRows true [wRowCall, wRowPut]))
        = inputOISum (normalizeRows true [wRowCall, wRowPut]) ∧
      (5 : Rat) ∉ (oi_agg (normalizeRows true [wRowCall, wRowPut])).map Prod.fst :=
  ⟨(c1_strike_additivity [wRowCall, wRowPut] true).1,
    (c1_strike_additivity [wRowCall, wRowPut] true).2 5 (by decide)⟩

/-- Claim C2, counterexample: a timestamp value that fails to parse is
NOT retained; the coercion turns it into NaT and strftime maps NaT
to NaN, so the normalized record holds null where the raw record held
the string "garbage" (the record itself is retained). -/
theorem c2_counterexample :
    wRowTime.last_trade_time = Cell.str "garbage" ∧
      parseDateTimeChars "garbage".data = none ∧
      (normalizeRows true [wRowTime]).map (fun r => r.last_trade_time) = [Cell.null] ∧
      Cell.null ≠ Cell.str "garbage" := by
  decide

/-- Claim C2 (amended: on a failed parse the field is set to null, not
retained): for every record and present timestamp field, a parseable
value is reformatted to the fixed `YYYY-MM-DD HH:MM:SS` display string,
an unparseable value becomes null, and the timestamp stage never drops
a record. -/
theorem c2_timestamp_coercion (r : Row) (f : TField) (s : String)
    (hp : getT r f = Cell.str s) :
    (parseDateTimeChars s.data = none → getT (timeRow r) f = Cell.null) ∧
      (∀ dt : DateTime, parseDateTimeChars s.data = some dt →
        getT (timeRow r) f = Cell.str (fmtDateTime dt)) ∧
      ∀ (hasExp : Bool) (rows : List Row),
        (normalizeRows hasExp rows).length = (preTime hasExp rows).length := by
  refine ⟨?_, ?_, ?_⟩
  · intro hfail
    rw [getT_timeRow, hp, format_datetime_cell, parseDateTimeCell, hfail]
  · intro dt hdt
    rw [getT_timeRow, hp, format_datetime_cell, parseDateTimeCell, hdt]
  · intro hasExp rows
    rw [normalizeRows]
    exact List.length_map _ _

/-- Witness for C2's amended theorem at a concrete record. -/
theorem c2_witness :
    getT (timeRow wRowTime) TField.last_trade_time = Cell.null :=
  (c2_timestamp_coercion wRowTime TField.last_trade_time "garbage" (by decide)).1 (by decide)

/-- Claim C3, counterexample: the output can be strictly shorter without
any present-but-unparseable expiration — a record whose expiration is
missing (null) is also dropped by `dropna` at line 101. -/
theorem c3_counterexample :
    (normalizeRows true [wRowNullExp]).length < ([wRowNullExp] : List Row).length ∧
      ∀ r ∈ ([wRowNullExp] : List Row),
        ¬(r.expiration ≠ Cell.null ∧ toDateStr r.expiration = Cell.null) := by
  decide

/-- Claim C3 (amended: "unparseable" must include a missing/null
expiration): the normalized output never has more records than the
input, and it has strictly fewer only when some input record's
expiration is null or fails to parse as a date. -/
theorem c3_output_length (hasExp : Bool) (rows : List Row) :
    (normalizeRows hasExp rows).length ≤ rows.length ∧
      ((normalizeRows hasExp rows).length < rows.length →
        ∃ r ∈ rows, toDateStr r.expiration = Cell.null) := by
  refine ⟨normalizeRows_length_le hasExp rows, ?_⟩
  intro hlt
  cases hasExp with
  | false =>
    exfalso
    have heq : (normalizeRows false rows).length = rows.length := by
      simp [normalizeRows, preTime, expStage]
    omega
  | true => exact normalizeRows_length_lt rows hlt

/-- Witness for C3's amended theorem at a concrete input. -/
theorem c3_witness :
    (normalizeRows true [wRowBadExp]).length ≤ ([wRowBadExp] : List Row).length ∧
      ∃ r ∈ ([wRowBadExp] : List Row), toDateStr r.expiration = Cell.null :=
  ⟨(c3_output_length true [wRowBadExp]).1, (c3_output_length true [wRowBadExp]).2 (by decide)⟩

/-- Claim C4: a record whose expiration is present but unparseable is
dropped (exactly that record — its siblings are processed as usual), and
a record whose expiration parses is kept with the expiration reformatted
to the canonical `YYYY-MM-DD` string. -/
theorem c4_expiration_parse (pre post : List Row) (r : Row) :
    (r.expiration ≠ Cell.null → toDateStr r.expiration = Cell.null →
        normalizeRows true (pre ++ r :: post) = normalizeRows true (pre ++ post)) ∧
      (∀ d : Date, parseDateCell r.expiration = some d →
        normalizeRows true (pre ++ r :: post)
            = normalizeRows true pre ++ timeRow (expRow (coerceRow r)) :: normalizeRows true post ∧
          (timeRow (expRow (coerceRow r))).expiration = Cell.str (fmtDate d)) := by
  constructor
  · intro _ hfail
    have h2 : normalizeRows true [r] = [] := by
      rw [normalizeRows_singleton, if_pos hfail]
    rw [show pre ++ r :: post = pre ++ [r] ++ post from by simp, normalizeRows_append,
      normalizeRows_append, h2, List.append_nil, ← normalizeRows_append]
  · intro d hd
    rcases normalizeRows_singleton_of_parse r d hd with ⟨hs, he⟩
    refine ⟨?_, he⟩
    rw [show pre ++ r :: post = pre ++ [r] ++ post from by simp, normalizeRows_append,
      normalizeRows_append, hs]
    simp

/-- Witness for C4: Scenario C — the unparseable-expiration row is
dropped, the valid sibling is kept, and a parsed expiration is
reformatted canonically. -/
theorem c4_witness :
    normalizeRows true [wRowBadExp, wRowGood] = normalizeRows true [wRowGood] ∧
      (timeRow (expRow (coerceRow wRowGood))).expiration
        = Cell.str (fmtDate ⟨2024, 1, 19⟩) :=
  ⟨(c4_expiration_parse [] [wRowGood] wRowBadExp).1 (by decide) (by decide),
    ((c4_expiration_parse [] [] wRowGood).2 ⟨2024, 1, 19⟩ (by decide)).2⟩

/-- Claim C5: when a present numeric field fails coercion, only that
field becomes null — the normalized output is the same as if just that
field had been null, and (when its expiration parses) the record itself
is retained. -/
theorem c5_numeric_nulling (pre post : List Row) (r : Row) (f : NumField)
    (_hp : getNum r f ≠ Cell.null) (hf : toNumeric (getNum r f) = Cell.null) :
    getNum (coerceRow r) f = Cell.null ∧
      normalizeRows true (pre ++ r :: post)
        = normalizeRows true (pre ++ setNum r f Cell.null :: post) ∧
      (toDateStr r.expiration ≠ Cell.null →
        normalizeRows true (pre ++ r :: post)
          = normalizeRows true pre ++ timeRow (expRow (coerceRow r)) :: normalizeRows true post) := by
  refine ⟨?_, ?_, ?_⟩
  · rw [getNum_coerceRow]
    exact hf
  · have hc := coerceRow_setNum_null r f hf
    have hmap : (pre ++ r :: post).map coerceRow
        = (pre ++ setNum r f Cell.null :: post).map coerceRow := by
      simp [hc]
    rw [normalizeRows_true_eq, normalizeRows_true_eq, hmap]
  · intro hexp
    have h2 : normalizeRows true [r] = [timeRow (expRow (coerceRow r))] := by
      rw [normalizeRows_singleton, if_neg hexp]
    rw [show pre ++ r :: post = pre ++ [r] ++ post from by simp, normalizeRows_append,
      normalizeRows_append, h2]
    simp

/-- Witness for C5: Scenario D — implied_volatility "N/A" is nulled,
the record is retained. -/
theorem c5_witness :
    getNum (coerceRow wRowIV) NumField.implied_volatility = Cell.null ∧
      normalizeRows true [wRowIV]
        = normalizeRows true [setNum wRowIV NumField.implied_volatility Cell.null] ∧
      normalizeRows true [wRowIV] = [timeRow (expRow (coerceRow wRowIV))] :=
  ⟨(c5_numeric_nulling [] [] wRowIV NumField.implied_volatility (by decide) (by decide)).1,
    (c5_numeric_nulling [] [] wRowIV NumField.implied_volatility (by decide) (by decide)).2.1,
    (c5_numeric_nulling [] [] wRowIV NumField.implied_volatility
      (by decide) (by decide)).2.2 (by decide)⟩

/-- Claim C6: the aggregator groups solely by strike (null open interest
counted as 0) and drops zero-total groups: scenario A merges a call and
a put at strike 100 into one row with total 80, scenario B yields an
empty aggregate, and in general a strike with total 0 never appears. -/
theorem c6_grouping :
    oi_agg [wRowCall, wRowPut] = [(100, 80)] ∧
      oi_agg [wRowZero, wRowNull] = [] ∧
      ∀ (rows : List Row) (k : Rat), totalOI rows k = 0 →
        k ∉ (oi_agg rows).map Prod.fst := by
  refine ⟨by decide, by decide, ?_⟩
  intro rows k h
  exact not_mem_oi_agg_of_total_zero rows k h

/-- Witness for C6's general zero-total clause at a concrete input. -/
theorem c6_witness : (90 : Rat) ∉ (oi_agg [wRowZero]).map Prod.fst :=
  c6_grouping.2.2 [wRowZero] 90 (by decide)

/-- Claim C7: the aggregate output is sorted strictly ascending by
strike, each strike occurs at most once, and no output row has
total_open_interest equal to 0. -/
theorem c7_aggregate_sorted (rows : List Row) :
    ((oi_agg rows).map Prod.fst).Pairwise (· < ·) ∧
      ((oi_agg rows).map Prod.fst).Nodup ∧
      ∀ p ∈ oi_agg rows, p.2 ≠ 0 := by
  refine ⟨oi_agg_fst_pairwise rows, (oi_agg_fst_pairwise rows).imp (fun h => ne_of_lt h), ?_⟩
  intro p hp
  rcases (oi_agg_mem rows p).1 hp with ⟨_, _, hpos⟩
  exact ne_of_gt hpos

/-- Witness for C7 at a concrete input. -/
theorem c7_witness :
    ((oi_agg [wRowCall, wRowPut]).map Prod.fst).Pairwise (· < ·) ∧
      ((100 : Rat), (80 : Rat)).2 ≠ 0 :=
  ⟨(c7_aggregate_sorted [wRowCall, wRowPut]).1,
    (c7_aggregate_sorted [wRowCall, wRowPut]).2.2 (100, 80) (by decide)⟩

theorem cellLt_irrefl (x : Cell) : cellLt x x = false := by
  rw [cellLt]
  cases h : cellLe x x <;> rfl

/-- Claim C8: the expiration filter returns exactly the rows whose
expiration equals the target (as a permutation — content and
multiplicity preserved), sorted ascending by the (strike, option_type)
key, which puts "call" before "put" at equal strike; the result is a
deterministic function of its input. -/
theorem c8_filtered_sorted (rows : List Row) (sel : String) :
    (filtered_df rows sel).Perm
        (rows.filter (fun r => decide (r.expiration = Cell.str sel))) ∧
      (filtered_df rows sel).Pairwise (fun a b => keyLe a b = true) ∧
      (filtered_df rows sel).Pairwise (fun a b =>
        a.strike = b.strike →
          ¬(a.option_type = Cell.str "put" ∧ b.option_type = Cell.str "call")) := by
  refine ⟨sortRows_perm _, sortRows_pairwise _, ?_⟩
  refine (sortRows_pairwise _).imp ?_
  intro a b hab hs hpc
  rcases hpc with ⟨hput, hcall⟩
  rw [keyLe, hs, cellLt_irrefl, hput, hcall] at hab
  exact absurd hab (by decide)

/-- Witness for C8 at a concrete input. -/
theorem c8_witness :
    (filtered_df [wRowPut, wRowCall] "2024-01-19").Perm
        ([wRowPut, wRowCall].filter
          (fun r => decide (r.expiration = Cell.str "2024-01-19"))) ∧
      (filtered_df [wRowPut, wRowCall] "2024-01-19").Pairwise
        (fun a b => keyLe a b = true) ∧
      (filtered_df [wRowPut, wRowCall] "2024-01-19").Pairwise (fun a b =>
        a.strike = b.strike →
          ¬(a.option_type = Cell.str "put" ∧ b.option_type = Cell.str "call")) :=
  c8_filtered_sorted [wRowPut, wRowCall] "2024-01-19"

/-- Claim C9, counterexample: computing the aggregate does NOT leave the
normalized table unchanged — line 252 assigns a new column
`open_interest_agg` onto `options_df` itself. -/
theorem c9_counterexample : aggEffect [wRowAgg] ≠ [wRowAgg] := by
  decide

/-- Claim C9 (amended: the aggregation step adds/overwrites only the
scratch column `open_interest_agg`): apart from that column, every field
of every record of the normalized table, and the record count, are
unchanged by the Aggregator. -/
theorem c9_agg_effect (rows : List Row) :
    (aggEffect rows).map stripAgg = rows.map stripAgg ∧
      (aggEffect rows).length = rows.length := by
  constructor
  · rw [aggEffect, List.map_map]
    rfl
  · rw [aggEffect]
    exact List.length_map _ _

/-- Witness for C9's amended theorem at a concrete input. -/
theorem c9_witness :
    (aggEffect [wRowAgg]).map stripAgg = [wRowAgg].map stripAgg :=
  (c9_agg_effect [wRowAgg]).1

/-- Claim C10: every record of the normalized output (expiration column
present) carries a non-null expiration of the canonical zero-padded
`YYYY-MM-DD` form — records with a missing/null expiration are removed
just like unparseable ones. -/
theorem c10_canonical_expiration (rows : List Row) (r : Row)
    (hr : r ∈ normalizeRows true rows) :
    r.expiration ≠ Cell.null ∧
      ∃ d : Date,
        (1 ≤ d.month ∧ d.month ≤ 12 ∧ 1 ≤ d.day ∧ d.day ≤ 31 ∧ d.year < 10000) ∧
        r.expiration = Cell.str (fmtDate d) := by
  rcases mem_normalizeRows_true rows r hr with ⟨y, hy, rfl, hne⟩
  have hexp : (timeRow (expRow (coerceRow y))).expiration = toDateStr y.expiration := by
    rw [timeRow_expiration, expRow_expiration, coerceRow_expiration]
  rcases hpd : parseDateCell y.expiration with _ | d
  · exfalso
    rw [toDateStr, hpd] at hne
    exact hne rfl
  · have hb : ∃ s : String, y.expiration = Cell.str s ∧ parseDateChars s.data = some d := by
      cases hc : y.expiration with
      | null =>
        rw [hc] at hpd
        exact absurd hpd (by simp [parseDateCell])
      | num q =>
        rw [hc] at hpd
        exact absurd hpd (by simp [parseDateCell])
      | str s =>
        rw [hc] at hpd
        exact ⟨s, rfl, hpd⟩
    rcases hb with ⟨s, _, hps⟩
    have hbounds := parseDateChars_bounds s.data d hps
    refine ⟨?_, d, hbounds, ?_⟩
    · rw [hexp, toDateStr, hpd]
      simp
    · rw [hexp, toDateStr, hpd]

/-- The normalized image of `wRowGood` (expiration re-padded). -/
def wRowGoodOut : Row := { strike := Cell.num 100, expiration := Cell.str "2024-01-19" }

/-- Witness for C10 at a concrete normalized record. -/
theorem c10_witness :
    wRowGoodOut.expiration ≠ Cell.null ∧
      ∃ d : Date,
        (1 ≤ d.month ∧ d.month ≤ 12 ∧ 1 ≤ d.day ∧ d.day ≤ 31 ∧ d.year < 10000) ∧
        wRowGoodOut.expiration = Cell.str (fmtDate d) :=
  c10_canonical_expiration [wRowGood] wRowGoodOut (by decide)
